import Mathlib

/-!
Verification of the image-resizer tool (src/image_resizer.py) against its
specification.  The program's arithmetic is embedded over exact rationals:
Python's `int()` applied to a nonnegative quotient is truncation toward
zero, and a float division by zero raises `ZeroDivisionError`, modelled as
`Option.none`.  Strings are embedded as `List Char`.
-/

/-- Python `int()` applied to an exact rational: truncation toward zero. -/
def int_of (q : ℚ) : ℤ := if 0 ≤ q then ⌊q⌋ else -⌊-q⌋

/-- Python division `a / b`: raises `ZeroDivisionError` (here `none`) when
the divisor is zero, otherwise the exact quotient. -/
def fdiv? (a b : ℚ) : Option ℚ := if b = 0 then none else some (a / b)

/-- Embedding of `ImageResizer.calculate_new_size` (src/image_resizer.py lines 70-105).
Arguments: the `maintain_aspect_ratio` flag, the stored `target_size`
`(width, height)` and the `original_size` `(width, height)`.  Mirrors the
source line by line: early return of the target when the flag is off, the
ratio `orig_width / orig_height`, the branch on `orig_width > orig_height`,
then the two sequential clamp steps; each division is checked, a zero
divisor yielding `none` (the propagated `ZeroDivisionError`). -/
def calculate_new_size (maintain_aspect : Bool) (target_size original_size : ℤ × ℤ) :
    Option (ℤ × ℤ) :=
  if maintain_aspect = false then some target_size
  else
    (fdiv? (original_size.1 : ℚ) (original_size.2 : ℚ)).bind fun r =>
      (if original_size.1 > original_size.2 then
          (fdiv? (target_size.1 : ℚ) r).map fun q => ((target_size.1, int_of q) : ℤ × ℤ)
        else
          some ((int_of ((target_size.2 : ℚ) * r), target_size.2) : ℤ × ℤ)).bind fun wh0 =>
        (if wh0.2 > target_size.2 then
            ((int_of ((target_size.2 : ℚ) * r), target_size.2) : ℤ × ℤ)
          else wh0) |> fun wh1 =>
        if wh1.1 > target_size.1 then
          (fdiv? (target_size.1 : ℚ) r).map fun q => ((target_size.1, int_of q) : ℤ × ℤ)
        else some wh1

/-- The spec's reference `computeSize` algorithm (spec.md §4.2), written
from the spec's words: with `preserveAspect` off return the target; with it
on, choose the axis by comparing original width to original height, `width
≥ height` scaling width to `target.w` with derived height
`floor(target.w / ratio)`, otherwise scaling height to `target.h` with
derived width `floor(target.h * ratio)`; then the two clamp steps in
order (height clamp, then width clamp).  Division by a zero height is the
spec's declared undefined behaviour, modelled as `none`. -/
def computeSize (original target : ℤ × ℤ) (preserveAspect : Bool) : Option (ℤ × ℤ) :=
  if preserveAspect = false then some target
  else
    (fdiv? (original.1 : ℚ) (original.2 : ℚ)).bind fun r =>
      (if original.1 ≥ original.2 then
          (fdiv? (target.1 : ℚ) r).map fun q => ((target.1, ⌊q⌋) : ℤ × ℤ)
        else
          some ((⌊(target.2 : ℚ) * r⌋, target.2) : ℤ × ℤ)).bind fun wh0 =>
        (if wh0.2 > target.2 then ((⌊(target.2 : ℚ) * r⌋, target.2) : ℤ × ℤ) else wh0)
          |> fun wh1 =>
        if wh1.1 > target.1 then
          (fdiv? (target.1 : ℚ) r).map fun q => ((target.1, ⌊q⌋) : ℤ × ℤ)
        else some wh1

/-- The aspect-preserving branch of `calculate_new_size` as a total
function over the exact ratio, with the truncations already rewritten to
floors (all truncated quantities are nonnegative on the inputs considered).
Auxiliary to the proofs. -/
def aspect_fit (ow oh tw th : ℤ) : ℤ × ℤ :=
  let r : ℚ := (ow : ℚ) / (oh : ℚ)
  let wh0 : ℤ × ℤ := if ow > oh then (tw, ⌊(tw : ℚ) / r⌋) else (⌊(th : ℚ) * r⌋, th)
  let wh1 : ℤ × ℤ := if wh0.2 > th then (⌊(th : ℚ) * r⌋, th) else wh0
  if wh1.1 > tw then (tw, ⌊(tw : ℚ) / r⌋) else wh1

lemma calc_run (ow oh tw th : ℤ) (how : 0 < ow) (hoh : 0 < oh) (htw : 0 ≤ tw)
    (hth : 0 ≤ th) :
    calculate_new_size true (tw, th) (ow, oh) = some (aspect_fit ow oh tw th) := by
  have hoh0 : ((oh : ℤ) : ℚ) ≠ 0 := Int.cast_ne_zero.mpr hoh.ne'
  have how0 : ((ow : ℤ) : ℚ) ≠ 0 := Int.cast_ne_zero.mpr how.ne'
  have hr : (ow : ℚ) / (oh : ℚ) ≠ 0 := div_ne_zero how0 hoh0
  have hrpos : 0 < (ow : ℚ) / (oh : ℚ) := by
    have hw : (0 : ℚ) < (ow : ℚ) := by exact_mod_cast how
    have hh : (0 : ℚ) < (oh : ℚ) := by exact_mod_cast hoh
    exact div_pos hw hh
  have htw' : (0 : ℚ) ≤ (tw : ℚ) := by exact_mod_cast htw
  have hth' : (0 : ℚ) ≤ (th : ℚ) := by exact_mod_cast hth
  have h1 : int_of ((tw : ℚ) / ((ow : ℚ) / (oh : ℚ))) = ⌊(tw : ℚ) / ((ow : ℚ) / (oh : ℚ))⌋ :=
    if_pos (div_nonneg htw' hrpos.le)
  have h2 : int_of ((th : ℚ) * ((ow : ℚ) / (oh : ℚ))) = ⌊(th : ℚ) * ((ow : ℚ) / (oh : ℚ))⌋ :=
    if_pos (mul_nonneg hth' hrpos.le)
  simp only [calculate_new_size, aspect_fit, fdiv?, if_neg hoh0, if_neg hr]
  by_cases hb : ow > oh
  · simp [hb, h1, h2, how.ne', hoh.ne']
    split <;> split <;> rfl
  · simp [hb, h1, h2, how.ne', hoh.ne']
    split <;> rfl

lemma calc_zero_width (oh tw th : ℤ) (hoh : 0 < oh) (htw : 0 < tw) :
    calculate_new_size true (tw, th) (0, oh) = some (0, th) := by
  have hoh0 : ((oh : ℤ) : ℚ) ≠ 0 := Int.cast_ne_zero.mpr hoh.ne'
  have hb : ¬ ((0 : ℤ) > oh) := by omega
  simp only [calculate_new_size, fdiv?, if_neg hoh0]
  simp [hb, lt_irrefl]
  norm_num [int_of, htw.le]

lemma calc_div_by_zero (ow tw th : ℤ) :
    calculate_new_size true (tw, th) (ow, 0) = none := by
  simp [calculate_new_size, fdiv?]

/-- The aspect-preserving branch of the spec's `computeSize`, as a total
function; auxiliary to the proofs. -/
def aspect_fit_spec (ow oh tw th : ℤ) : ℤ × ℤ :=
  let r : ℚ := (ow : ℚ) / (oh : ℚ)
  let wh0 : ℤ × ℤ := if ow ≥ oh then (tw, ⌊(tw : ℚ) / r⌋) else (⌊(th : ℚ) * r⌋, th)
  let wh1 : ℤ × ℤ := if wh0.2 > th then (⌊(th : ℚ) * r⌋, th) else wh0
  if wh1.1 > tw then (tw, ⌊(tw : ℚ) / r⌋) else wh1

lemma computeSize_run (ow oh tw th : ℤ) (how : 0 < ow) (hoh : 0 < oh) :
    computeSize (ow, oh) (tw, th) true = some (aspect_fit_spec ow oh tw th) := by
  have hoh0 : ((oh : ℤ) : ℚ) ≠ 0 := Int.cast_ne_zero.mpr hoh.ne'
  have how0 : ((ow : ℤ) : ℚ) ≠ 0 := Int.cast_ne_zero.mpr how.ne'
  have hr : (ow : ℚ) / (oh : ℚ) ≠ 0 := div_ne_zero how0 hoh0
  simp only [computeSize, aspect_fit_spec, fdiv?, if_neg hoh0, if_neg hr]
  by_cases hb : ow ≥ oh
  · simp [hb, how.ne', hoh.ne']
    split <;> split <;> rfl
  · simp [hb, how.ne', hoh.ne']
    split <;> rfl

lemma aspect_fit_eq_spec (ow oh tw th : ℤ) (how : 0 < ow) (hoh : 0 < oh) :
    aspect_fit ow oh tw th = aspect_fit_spec ow oh tw th := by
  rcases lt_trichotomy ow oh with hlt | heq | hgt
  · simp [aspect_fit, aspect_fit_spec, lt_asymm hlt, not_le.mpr hlt]
  · subst heq
    have how0 : ((ow : ℤ) : ℚ) ≠ 0 := Int.cast_ne_zero.mpr how.ne'
    simp [aspect_fit, aspect_fit_spec, div_self how0, lt_irrefl, le_refl]
    split_ifs <;> simp_all [Prod.ext_iff] <;> omega
  · simp [aspect_fit, aspect_fit_spec, hgt, hgt.le]

lemma aspect_fit_bounds (ow oh tw th : ℤ) (how : 0 < ow) (hoh : 0 < oh) (htw : 0 < tw)
    (hth : 0 < th) :
    ((aspect_fit ow oh tw th).1 ≤ tw ∧ (aspect_fit ow oh tw th).2 ≤ th) ∧
      ((aspect_fit ow oh tw th).1 = tw ∨ (aspect_fit ow oh tw th).2 = th) := by
  have hrpos : 0 < (ow : ℚ) / (oh : ℚ) :=
    div_pos (by exact_mod_cast how) (by exact_mod_cast hoh)
  simp only [aspect_fit]
  set r : ℚ := (ow : ℚ) / (oh : ℚ) with hrdef
  have hA : th < ⌊(tw : ℚ) / r⌋ → ⌊(th : ℚ) * r⌋ < tw := by
    intro h
    have h1 : ((th : ℚ) + 1) ≤ (tw : ℚ) / r := by
      have h0 := Int.le_floor.mp (by omega : th + 1 ≤ ⌊(tw : ℚ) / r⌋)
      push_cast at h0
      exact h0
    have h2 : (th : ℚ) * r < (tw : ℚ) := by
      have h3 : (th : ℚ) < (tw : ℚ) / r := by linarith
      calc (th : ℚ) * r < ((tw : ℚ) / r) * r := mul_lt_mul_of_pos_right h3 hrpos
        _ = (tw : ℚ) := div_mul_cancel₀ _ (ne_of_gt hrpos)
    exact Int.floor_lt.mpr h2
  have hB : tw < ⌊(th : ℚ) * r⌋ → ⌊(tw : ℚ) / r⌋ < th := by
    intro h
    have h1 : (tw : ℚ) + 1 ≤ (th : ℚ) * r := by
      have h0 := Int.le_floor.mp (by omega : tw + 1 ≤ ⌊(th : ℚ) * r⌋)
      push_cast at h0
      exact h0
    have h2 : (tw : ℚ) / r < (th : ℚ) := (div_lt_iff₀ hrpos).mpr (by linarith)
    exact Int.floor_lt.mpr h2
  by_cases hb : oh < ow
  · by_cases hc : th < ⌊(tw : ℚ) / r⌋
    · have hc2 := hA hc
      simp [hb, hc, not_lt.mpr hc2.le]
      exact hc2.le
    · simp [hb, hc, lt_irrefl]
      exact not_lt.mp hc
  · by_cases hc : tw < ⌊(th : ℚ) * r⌋
    · have hc2 := hB hc
      simp [hb, hc, lt_irrefl]
      exact hc2.le
    · simp [hb, hc, lt_irrefl]
      exact not_lt.mp hc

example : calculate_new_size true (800, 600) (1920, 1080) = some (800, 450) := by
  norm_num [calculate_new_size, fdiv?, int_of]
example : calculate_new_size true (800, 600) (600, 1920) = some (187, 600) := by
  norm_num [calculate_new_size, fdiv?, int_of]
example : calculate_new_size true (800, 600) (800, 600) = some (800, 600) := by
  norm_num [calculate_new_size, fdiv?, int_of]
example : calculate_new_size true (800, 600) (1, 1000) = some (0, 600) := by
  norm_num [calculate_new_size, fdiv?, int_of]
example : calculate_new_size true (800, 600) (5, 0) = none := by
  norm_num [calculate_new_size, fdiv?]
example : computeSize (1920, 1080) (800, 600) true = some (800, 450) := by
  norm_num [computeSize, fdiv?]

/-- C1: for every original and target size with all four components
positive and either value of the flag, `calculate_new_size` returns exactly
what the spec's reference `computeSize` algorithm prescribes: the target
unchanged when aspect is not preserved, otherwise the axis choice by
width/height comparison followed by the two clamp steps. -/
theorem C1_calculate_new_size_refines_computeSize (ow oh tw th : ℤ) (pa : Bool)
    (how : 0 < ow) (hoh : 0 < oh) (htw : 0 < tw) (hth : 0 < th) :
    calculate_new_size pa (tw, th) (ow, oh) = computeSize (ow, oh) (tw, th) pa := by
  cases pa
  · rfl
  · rw [calc_run ow oh tw th how hoh htw.le hth.le, computeSize_run ow oh tw th how hoh,
      aspect_fit_eq_spec ow oh tw th how hoh]

theorem C1_witness :
    (0 : ℤ) < 1920 ∧
      calculate_new_size true (800, 600) (1920, 1080) = computeSize (1920, 1080) (800, 600) true :=
  ⟨by norm_num,
    C1_calculate_new_size_refines_computeSize 1920 1080 800 600 true (by norm_num) (by norm_num)
      (by norm_num) (by norm_num)⟩

/-- C2: with the aspect flag on and all dimensions positive, the returned
width is at most the target width and the returned height at most the
target height. -/
theorem C2_result_within_target (ow oh tw th w h : ℤ)
    (how : 0 < ow) (hoh : 0 < oh) (htw : 0 < tw) (hth : 0 < th)
    (hres : calculate_new_size true (tw, th) (ow, oh) = some (w, h)) :
    w ≤ tw ∧ h ≤ th := by
  rw [calc_run ow oh tw th how hoh htw.le hth.le] at hres
  have he : aspect_fit ow oh tw th = (w, h) := Option.some.inj hres
  have hb := (aspect_fit_bounds ow oh tw th how hoh htw hth).1
  rw [he] at hb
  exact hb

theorem C2_witness : (800 : ℤ) ≤ 800 ∧ (450 : ℤ) ≤ 600 :=
  C2_result_within_target 1920 1080 800 600 800 450 (by norm_num) (by norm_num) (by norm_num)
    (by norm_num) (by norm_num [calculate_new_size, fdiv?, int_of])

/-- C3 fails on the code: for the original size `(1, 1000)` and the target
`(800, 600)` (all components positive), the aspect-preserving computation
returns a width of `0`, which is not `≥ 1`; the code has no clamp-to-one
guard. -/
theorem C3_zero_width_failing_input :
    calculate_new_size true (800, 600) (1, 1000) = some (0, 600) ∧ ¬ ((1 : ℤ) ≤ 0) := by
  refine ⟨?_, by norm_num⟩
  norm_num [calculate_new_size, fdiv?, int_of]

/-- C8: with the aspect flag on, a nonnegative original width, a
nonnegative original height and a positive target, the computation raises
`ZeroDivisionError` (modelled `none`) exactly when the original height is
zero; in particular with a positive height it returns normally. -/
theorem C8_division_fault_iff_zero_height (ow oh tw th : ℤ)
    (how : 0 ≤ ow) (hoh : 0 ≤ oh) (htw : 0 < tw) (hth : 0 < th) :
    calculate_new_size true (tw, th) (ow, oh) = none ↔ oh = 0 := by
  constructor
  · intro hn
    by_contra hne
    have hohpos : 0 < oh := lt_of_le_of_ne hoh (Ne.symm hne)
    rcases eq_or_lt_of_le how with heq | hpos
    · rw [← heq, calc_zero_width oh tw th hohpos htw] at hn
      exact Option.noConfusion hn
    · rw [calc_run ow oh tw th hpos hohpos htw.le hth.le] at hn
      exact Option.noConfusion hn
  · intro h
    subst h
    exact calc_div_by_zero ow tw th

theorem C8_witness :
    calculate_new_size true (800, 600) (5, 0) = none ∧
      calculate_new_size true (800, 600) (5, 3) ≠ none := by
  constructor
  · exact (C8_division_fault_iff_zero_height 5 0 800 600 (by norm_num) (by norm_num)
      (by norm_num) (by norm_num)).mpr rfl
  · intro hn
    exact absurd ((C8_division_fault_iff_zero_height 5 3 800 600 (by norm_num) (by norm_num)
      (by norm_num) (by norm_num)).mp hn) (by norm_num)

/-- C10: with the aspect flag on and all dimensions positive, at least one
component of the result equals the corresponding target component. -/
theorem C10_touches_target_box (ow oh tw th w h : ℤ)
    (how : 0 < ow) (hoh : 0 < oh) (htw : 0 < tw) (hth : 0 < th)
    (hres : calculate_new_size true (tw, th) (ow, oh) = some (w, h)) :
    w = tw ∨ h = th := by
  rw [calc_run ow oh tw th how hoh htw.le hth.le] at hres
  have he : aspect_fit ow oh tw th = (w, h) := Option.some.inj hres
  have hb := (aspect_fit_bounds ow oh tw th how hoh htw hth).2
  rw [he] at hb
  exact hb

theorem C10_witness : (450 : ℤ) = 800 ∨ (450 : ℤ) = 450 :=
  C10_touches_target_box 450 450 800 450 450 450 (by norm_num) (by norm_num) (by norm_num)
    (by norm_num) (by norm_num [calculate_new_size, fdiv?, int_of])

/-- The per-run statistics fields of `ImageResizer` (lines 49-52 of
src/image_resizer.py). -/
structure Stats where
  processed : ℕ
  failed : ℕ
  skipped : ℕ
  deriving DecidableEq

/-- The statistics as initialised by `ImageResizer.__init__` (lines 49-52):
all three counters start at zero. -/
def init_stats : Stats := ⟨0, 0, 0⟩

/-- Embedding of `ImageResizer.resize_image` (lines 107-164), abstracted over the
external codec: the whole per-file pipeline (open, flatten, compute size,
resample, save, log) sits inside one try block, so its effect on the
counters is decided by whether any step raised.  `ok = true` models a run
of the body reaching lines 158-159 (`processed` incremented, `True`
returned); `ok = false` models an exception anywhere in the body, caught
at lines 161-164 (`failed` incremented, `False` returned). -/
def resize_image (ok : Bool) (s : Stats) : Stats × Bool :=
  if ok then ({ s with processed := s.processed + 1 }, true)
  else ({ s with failed := s.failed + 1 }, false)

/-- The per-file loop of `ImageResizer.process_batch` (lines 188-190): the
enumerated files are processed in order and the boolean returned by
`resize_image` is discarded, so each iteration only updates the
counters. -/
def process_batch_loop (outcomes : List Bool) (s : Stats) : Stats :=
  outcomes.foldl (fun st ok => (resize_image ok st).1) s

/-- Condition under which `ImageResizer.print_summary` emits its skipped line: exactly when the
skipped counter is positive (lines 203-204). -/
def summary_has_skipped_line (s : Stats) : Bool := decide (0 < s.skipped)

lemma process_batch_loop_cons (ok : Bool) (rest : List Bool) (s : Stats) :
    process_batch_loop (ok :: rest) s = process_batch_loop rest ((resize_image ok s).1) := rfl

lemma process_batch_loop_totals (outcomes : List Bool) (s : Stats) :
    (process_batch_loop outcomes s).processed + (process_batch_loop outcomes s).failed =
        s.processed + s.failed + outcomes.length ∧
      (process_batch_loop outcomes s).skipped = s.skipped := by
  induction outcomes generalizing s with
  | nil => simp [process_batch_loop]
  | cons ok rest ih =>
    rw [process_batch_loop_cons]
    rcases ih ((resize_image ok s).1) with ⟨h1, h2⟩
    cases ok <;> simp [resize_image] at h1 h2 ⊢ <;> omega

/-- C4: each enumerated file increments exactly one of `processed` or
`failed`, by one, leaving the other and `skipped` unchanged; a failing
file does not stop the loop, the remaining files being processed from the
updated counters; after the loop `processed + failed` equals the number of
enumerated files; and a three-file batch whose second file fails to decode
ends with `processed = 2` and `failed = 1`. -/
theorem C4_per_file_failure_isolation_and_counts :
    (∀ ok s, (((resize_image ok s).1.processed = s.processed + 1 ∧
          (resize_image ok s).1.failed = s.failed) ∨
        ((resize_image ok s).1.failed = s.failed + 1 ∧
          (resize_image ok s).1.processed = s.processed)) ∧
        (resize_image ok s).1.skipped = s.skipped) ∧
      (∀ rest s, process_batch_loop (false :: rest) s =
        process_batch_loop rest { s with failed := s.failed + 1 }) ∧
      (∀ outcomes, (process_batch_loop outcomes init_stats).processed +
          (process_batch_loop outcomes init_stats).failed = outcomes.length) ∧
      ((process_batch_loop [true, false, true] init_stats).processed = 2 ∧
        (process_batch_loop [true, false, true] init_stats).failed = 1) := by
  refine ⟨?_, ?_, ?_, by decide⟩
  · intro ok s
    cases ok <;> simp [resize_image]
  · intro rest s
    rfl
  · intro outcomes
    have h := (process_batch_loop_totals outcomes init_stats).1
    rw [h]
    simp [init_stats]

/-- C9: the skipped counter is never incremented: whatever the per-file
outcomes, after the batch it still holds its initial zero, and the
summary's skipped line is not emitted. -/
theorem C9_skipped_stays_zero (outcomes : List Bool) :
    (process_batch_loop outcomes init_stats).skipped = 0 ∧
      summary_has_skipped_line (process_batch_loop outcomes init_stats) = false := by
  have h := (process_batch_loop_totals outcomes init_stats).2
  have h0 : (process_batch_loop outcomes init_stats).skipped = 0 := by rw [h]; rfl
  exact ⟨h0, by simp [summary_has_skipped_line, h0]⟩

/-- A directory entry as seen by `Path.iterdir` (line 63): its name and
whether it is a regular file. -/
structure DirEntry where
  name : List Char
  isFile : Bool
  deriving DecidableEq

/-- Embedding of `ImageResizer.SUPPORTED_FORMATS` (line 27): the extension allow-list,
each with its leading dot, all lower case. -/
def SUPPORTED_FORMATS : List (List Char) :=
  [['.', 'j', 'p', 'g'], ['.', 'j', 'p', 'e', 'g'], ['.', 'p', 'n', 'g'],
    ['.', 'g', 'i', 'f'], ['.', 'b', 'm', 'p'], ['.', 't', 'i', 'f', 'f'],
    ['.', 'w', 'e', 'b', 'p']]

/-- Split a filename at its last dot: `some (p, t)` when the name is
`p ++ '.' :: t` with no dot in `t`, `none` when the name has no dot.  This
is the `rfind` underlying `PurePath.suffix`. -/
def splitLastDot : List Char → Option (List Char × List Char)
  | [] => none
  | c :: cs =>
    match splitLastDot cs with
    | some (p, t) => some (c :: p, t)
    | none => if c = '.' then some ([], cs) else none

/-- Embedding of `PurePath.suffix`: the final extension with its dot; empty when the
name has no dot, when its only dot is its first character, or when the dot
is its last character. -/
def pathSuffix (name : List Char) : List Char :=
  match splitLastDot name with
  | none => []
  | some (p, t) => if p ≠ [] ∧ t ≠ [] then '.' :: t else []

/-- Embedding of `PurePath.stem`: the name with `pathSuffix` removed. -/
def pathStem (name : List Char) : List Char :=
  name.take (name.length - (pathSuffix name).length)

/-- Python `str.lower` on a filename (ASCII). -/
def lowerStr (s : List Char) : List Char := s.map Char.toLower

/-- Embedding of `ImageResizer.get_image_files` (lines 59-68): walk the directory
entries in listing order and append each regular file whose lower-cased
suffix is in `SUPPORTED_FORMATS`. -/
def get_image_files (entries : List DirEntry) : List (List Char) :=
  entries.foldl
    (fun acc e =>
      if e.isFile && decide (lowerStr (pathSuffix e.name) ∈ SUPPORTED_FORMATS) then
        acc ++ [e.name]
      else acc)
    []

/-- The claim's allow-list: the same seven extensions without their
dots. -/
def claimExtList : List (List Char) :=
  [['j', 'p', 'g'], ['j', 'p', 'e', 'g'], ['p', 'n', 'g'], ['g', 'i', 'f'],
    ['b', 'm', 'p'], ['t', 'i', 'f', 'f'], ['w', 'e', 'b', 'p']]

/-- The claim's selection predicate: a regular file whose extension
(without the dot), compared case-insensitively, is in the allow-list. -/
def claim_keeps (e : DirEntry) : Bool :=
  e.isFile && decide (lowerStr ((pathSuffix e.name).drop 1) ∈ claimExtList)

lemma splitLastDot_eq_none_iff (l : List Char) : splitLastDot l = none ↔ '.' ∉ l := by
  induction l with
  | nil => simp [splitLastDot]
  | cons c cs ih =>
    by_cases h : splitLastDot cs = none
    · have hcs : '.' ∉ cs := ih.mp h
      by_cases hc : c = '.'
      · subst hc
        simp [splitLastDot, h]
      · simp [splitLastDot, h, hc, hcs, Ne.symm hc]
    · obtain ⟨pt, hpt⟩ := Option.ne_none_iff_exists'.mp h
      have hcs : '.' ∈ cs := by
        by_contra hn
        exact h (ih.mpr hn)
      simp [splitLastDot, hpt, hcs]

lemma splitLastDot_no_dot_in_post {l p t : List Char} (h : splitLastDot l = some (p, t)) :
    '.' ∉ t := by
  induction l generalizing p t with
  | nil => simp [splitLastDot] at h
  | cons c cs ih =>
    by_cases h2 : splitLastDot cs = none
    · by_cases hc : c = '.'
      · subst hc
        simp [splitLastDot, h2] at h
        rcases h with ⟨hp, ht⟩
        subst ht
        exact (splitLastDot_eq_none_iff cs).mp h2
      · simp [splitLastDot, h2, hc] at h
    · obtain ⟨⟨p2, t2⟩, hpt⟩ := Option.ne_none_iff_exists'.mp h2
      rw [splitLastDot, hpt] at h
      simp at h
      rcases h with ⟨hp, ht⟩
      subst ht
      exact ih hpt

lemma splitLastDot_decomposes {l p t : List Char} (h : splitLastDot l = some (p, t)) :
    l = p ++ '.' :: t := by
  induction l generalizing p t with
  | nil => simp [splitLastDot] at h
  | cons c cs ih =>
    by_cases h2 : splitLastDot cs = none
    · by_cases hc : c = '.'
      · subst hc
        simp [splitLastDot, h2] at h
        rcases h with ⟨hp, ht⟩
        subst hp
        subst ht
        rfl
      · simp [splitLastDot, h2, hc] at h
    · obtain ⟨⟨p2, t2⟩, hpt⟩ := Option.ne_none_iff_exists'.mp h2
      rw [splitLastDot, hpt] at h
      simp at h
      rcases h with ⟨hp, ht⟩
      subst hp
      subst ht
      simpa using ih hpt

lemma splitLastDot_append_last (p e : List Char) (he : '.' ∉ e) :
    splitLastDot (p ++ '.' :: e) = some (p, e) := by
  induction p with
  | nil =>
    simp [splitLastDot, (splitLastDot_eq_none_iff e).mpr he]
  | cons c cs ih =>
    show (match splitLastDot (cs ++ '.' :: e) with
      | some (p, t) => some (c :: p, t)
      | none => if c = '.' then some ([], cs ++ '.' :: e) else none) = some (c :: cs, e)
    rw [ih]

lemma pathSuffix_append (p e : List Char) (hp : p ≠ []) (he0 : e ≠ []) (he : '.' ∉ e) :
    pathSuffix (p ++ '.' :: e) = '.' :: e := by
  simp [pathSuffix, splitLastDot_append_last p e he, hp, he0]

lemma pathStem_append (p e : List Char) (hp : p ≠ []) (he0 : e ≠ []) (he : '.' ∉ e) :
    pathStem (p ++ '.' :: e) = p := by
  unfold pathStem
  rw [pathSuffix_append p e hp he0 he]
  have hlen : (p ++ '.' :: e).length - ('.' :: e).length = p.length := by
    simp [List.length_append]
  rw [hlen, List.take_left]

lemma get_image_files_aux (p : DirEntry → Bool) (entries : List DirEntry)
    (acc : List (List Char)) :
    entries.foldl (fun acc e => if p e then acc ++ [e.name] else acc) acc =
      acc ++ (entries.filter p).map DirEntry.name := by
  induction entries generalizing acc with
  | nil => simp
  | cons e rest ih =>
    cases hp : p e <;> simp [List.foldl_cons, List.filter_cons, hp, ih]

lemma member_formats_iff (s : List Char) :
    lowerStr (pathSuffix s) ∈ SUPPORTED_FORMATS ↔
      lowerStr ((pathSuffix s).drop 1) ∈ claimExtList := by
  cases hs : splitLastDot s with
  | none =>
    have hsuf : pathSuffix s = [] := by simp [pathSuffix, hs]
    rw [hsuf]
    simp [lowerStr, SUPPORTED_FORMATS, claimExtList]
  | some pt =>
    obtain ⟨p, t⟩ := pt
    by_cases hc : p ≠ [] ∧ t ≠ []
    · have hsuf : pathSuffix s = '.' :: t := by simp [pathSuffix, hs, hc]
      have hd : Char.toLower '.' = '.' := by decide
      rw [hsuf]
      simp [lowerStr, hd, SUPPORTED_FORMATS, claimExtList]
    · have hsuf : pathSuffix s = [] := by simp [pathSuffix, hs, hc]
      rw [hsuf]
      simp [lowerStr, SUPPORTED_FORMATS, claimExtList]

/-- C5: `get_image_files` returns, in directory-listing order, exactly the
names of the regular-file entries whose extension, compared
case-insensitively, is in {jpg, jpeg, png, gif, bmp, tiff, webp};
non-files are excluded and nothing is recursed into; in particular a
directory listing `a.jpg`, `b.txt`, `c.PNG` and a subdirectory `d` yields
exactly `[a.jpg, c.PNG]`. -/
theorem C5_get_image_files_filters (entries : List DirEntry) :
    get_image_files entries = (entries.filter claim_keeps).map DirEntry.name ∧
      get_image_files
          [⟨['a', '.', 'j', 'p', 'g'], true⟩, ⟨['b', '.', 't', 'x', 't'], true⟩,
            ⟨['c', '.', 'P', 'N', 'G'], true⟩, ⟨['d'], false⟩] =
        [['a', '.', 'j', 'p', 'g'], ['c', '.', 'P', 'N', 'G']] := by
  constructor
  · rw [get_image_files, get_image_files_aux
      (fun e => e.isFile && decide (lowerStr (pathSuffix e.name) ∈ SUPPORTED_FORMATS))]
    rw [List.nil_append]
    congr 1
    apply List.filter_congr
    intro e _
    have h := member_formats_iff e.name
    simp [claim_keeps, h]
  · decide

/-- Lines 137-140 of `resize_image`: `output_format = self.output_format
or image_path.suffix[1:].lower()` followed by `output_filename =
image_path.stem + '.' + output_format`.  The stored `output_format` is
`None` or a nonempty lower-case string, `__init__` (line 46) having mapped
a falsy argument to `None`; the Python `or` is the empty test in the
`some` branch. -/
def output_filename (output_format : Option (List Char)) (name : List Char) : List Char :=
  pathStem name ++ '.' ::
    (match output_format with
      | some f => if f = [] then lowerStr ((pathSuffix name).drop 1) else f
      | none => lowerStr ((pathSuffix name).drop 1))

/-- The CLI `--format` choices (line 245). -/
def cliFormatChoices : List (List Char) :=
  [['j', 'p', 'g'], ['j', 'p', 'e', 'g'], ['p', 'n', 'g'], ['g', 'i', 'f'],
    ['b', 'm', 'p'], ['w', 'e', 'b', 'p']]

lemma name_decomp (name : List Char)
    (hname : lowerStr (pathSuffix name) ∈ SUPPORTED_FORMATS) :
    ∃ p t, name = p ++ '.' :: t ∧ p ≠ [] ∧ t ≠ [] ∧ '.' ∉ t ∧
      pathSuffix name = '.' :: t := by
  cases hs : splitLastDot name with
  | none =>
    have hsuf : pathSuffix name = [] := by simp [pathSuffix, hs]
    rw [hsuf] at hname
    simp [lowerStr, SUPPORTED_FORMATS] at hname
  | some pt =>
    obtain ⟨p, t⟩ := pt
    by_cases hc : p ≠ [] ∧ t ≠ []
    · exact ⟨p, t, splitLastDot_decomposes hs, hc.1, hc.2, splitLastDot_no_dot_in_post hs,
        by simp [pathSuffix, hs, hc]⟩
    · have hsuf : pathSuffix name = [] := by simp [pathSuffix, hs, hc]
      rw [hsuf] at hname
      simp [lowerStr, SUPPORTED_FORMATS] at hname

/-- C6 as frozen fails on the code: with no configured output format, the
input `c.PNG` is saved as `c.png` — line 138 lower-cases the input's
extension, so the output extension is not the input's original
extension. -/
theorem C6_counterexample_extension_lowercased :
    output_filename none ['c', '.', 'P', 'N', 'G'] = ['c', '.', 'p', 'n', 'g'] ∧
      pathSuffix (output_filename none ['c', '.', 'P', 'N', 'G']) ≠
        pathSuffix ['c', '.', 'P', 'N', 'G'] := by decide

/-- C6 amended: for an input whose lower-cased suffix is a supported
extension (exactly the files the batch enumerates) and a configured format
that is one of the CLI choices when present, the output filename keeps the
input's stem, and its extension is the configured output format when one
is set, else the input's original extension lower-cased. -/
theorem C6_output_filename_stem_and_extension (name : List Char) (fmt : Option (List Char))
    (hname : lowerStr (pathSuffix name) ∈ SUPPORTED_FORMATS)
    (hfmt : fmt.elim True fun f => f ∈ cliFormatChoices) :
    pathStem (output_filename fmt name) = pathStem name ∧
      pathSuffix (output_filename fmt name) =
        fmt.elim (lowerStr (pathSuffix name)) fun f => '.' :: f := by
  obtain ⟨p, t, happ, hp, ht, hnd, hsuf⟩ := name_decomp name hname
  have hstem : pathStem name = p := by
    rw [happ]
    exact pathStem_append p t hp ht hnd
  have hdropped : (pathSuffix name).drop 1 = t := by rw [hsuf]; rfl
  have hd : Char.toLower '.' = '.' := by decide
  cases fmt with
  | none =>
    have hmem : ('.' :: lowerStr t) ∈ SUPPORTED_FORMATS := by
      rw [hsuf] at hname
      simpa [lowerStr, hd] using hname
    have hfacts : lowerStr t ≠ [] ∧ '.' ∉ lowerStr t := by
      simp [SUPPORTED_FORMATS] at hmem
      rcases hmem with h | h | h | h | h | h | h <;> rw [h] <;>
        exact ⟨by decide, by decide⟩
    have hout : output_filename none name = p ++ '.' :: lowerStr t := by
      rw [output_filename, hdropped, hstem]
    rw [hout]
    simp only [Option.elim]
    constructor
    · rw [pathStem_append p (lowerStr t) hp hfacts.1 hfacts.2, hstem]
    · rw [pathSuffix_append p (lowerStr t) hp hfacts.1 hfacts.2, hsuf]
      simp [lowerStr, hd]
  | some f =>
    have hf : f ∈ cliFormatChoices := hfmt
    have hfacts : f ≠ [] ∧ '.' ∉ f := by
      simp [cliFormatChoices] at hf
      rcases hf with h | h | h | h | h | h <;> subst h <;> exact ⟨by decide, by decide⟩
    have hout : output_filename (some f) name = p ++ '.' :: f := by
      rw [output_filename, hstem]
      simp [hfacts.1]
    rw [hout]
    simp only [Option.elim]
    exact ⟨by rw [pathStem_append p f hp hfacts.1 hfacts.2, hstem],
      by rw [pathSuffix_append p f hp hfacts.1 hfacts.2]⟩

theorem C6_witness :
    pathStem (output_filename (some ['j', 'p', 'g'])
        ['p', 'h', 'o', 't', 'o', '.', 'P', 'N', 'G']) =
      pathStem ['p', 'h', 'o', 't', 'o', '.', 'P', 'N', 'G'] ∧
    pathSuffix (output_filename (some ['j', 'p', 'g'])
        ['p', 'h', 'o', 't', 'o', '.', 'P', 'N', 'G']) =
      (some ['j', 'p', 'g']).elim
        (lowerStr (pathSuffix ['p', 'h', 'o', 't', 'o', '.', 'P', 'N', 'G']))
        (fun f => '.' :: f) :=
  C6_output_filename_stem_and_extension ['p', 'h', 'o', 't', 'o', '.', 'P', 'N', 'G']
    (some ['j', 'p', 'g']) (by decide)
    (by show ['j', 'p', 'g'] ∈ cliFormatChoices; decide)

/-- The JPEG-family formats tested on line 123. -/
def jpeg_family : List (List Char) := [['j', 'p', 'g'], ['j', 'p', 'e', 'g']]

/-- The alpha-or-palette colour modes tested on line 123. -/
def alpha_or_palette_modes : List (List Char) := [['R', 'G', 'B', 'A'], ['L', 'A'], ['P']]

/-- Line 123 of `resize_image`: `self.output_format in ['jpg', 'jpeg'] and
img.mode in ['RGBA', 'LA', 'P']`; a stored `None` format is in no list, so
the test is false.  `True` means the white-background flattening block
(lines 124-129) runs before resizing; `False` means it is skipped. -/
def flatten_condition (output_format : Option (List Char)) (mode : List Char) : Bool :=
  (match output_format with
    | some f => decide (f ∈ jpeg_family)
    | none => false) && decide (mode ∈ alpha_or_palette_modes)

/-- C7: the white-background flattening before resizing happens exactly
when the configured output format is the JPEG family (jpg or jpeg) and the
decoded colour mode carries alpha or palette (RGBA, LA or P); any other
format (including none configured) or mode skips the compositing. -/
theorem C7_flatten_iff_jpeg_and_alpha (fmt : Option (List Char)) (mode : List Char) :
    flatten_condition fmt mode = true ↔
      ((fmt = some ['j', 'p', 'g'] ∨ fmt = some ['j', 'p', 'e', 'g']) ∧
        (mode = ['R', 'G', 'B', 'A'] ∨ mode = ['L', 'A'] ∨ mode = ['P'])) := by
  cases fmt <;> simp [flatten_condition, jpeg_family, alpha_or_palette_modes]
